import Mathlib

/-!
Verification of the cucumber-studio-mcp server core: the scenario text
codec (src/utils.ts), the response cache and path-based invalidator
(src/api-client.ts), the read-only tool gate (the server entry file),
and the multi-tag partial-failure policy (src/api-client.ts).

Strings are modelled as lists of characters (`Str`).  The two regular
expressions of the codec are embedded by deterministic matchers that
realise the leftmost-match / greedy semantics of the JavaScript engine
for these particular patterns (each `\s+` is followed by a
non-whitespace-starting element, so maximal munch is exact, and the four
step keywords have pairwise distinct first letters, so alternation order
is irrelevant).
-/

/-- Characters matched by the JavaScript `\s` class (ASCII part) and by
`String.prototype.trim`. -/
def jsWhitespace (c : Char) : Bool :=
  c = ' ' || c = '\t' || c = '\n' || c = '\r' || c = '\x0b' || c = '\x0c'

/-- Strings of the JavaScript source, as lists of characters. -/
abbrev Str := List Char

/-- Model of `String.prototype.trim`: strip leading whitespace. -/
def trimLeft (s : Str) : Str := s.dropWhile jsWhitespace

/-- Model of `String.prototype.trim`: strip trailing whitespace. -/
def trimRight (s : Str) : Str := (s.reverse.dropWhile jsWhitespace).reverse

/-- Model of `String.prototype.trim`. -/
def trimStr (s : Str) : Str := trimLeft (trimRight s)

/-- Model of `String.prototype.split(sep)` for a one-character separator:
always returns at least one (possibly empty) field. -/
def splitOnChar (sep : Char) : Str → List Str
  | [] => [[]]
  | c :: rest =>
    if c = sep then [] :: splitOnChar sep rest
    else
      match splitOnChar sep rest with
      | [] => [[c]]
      | l :: ls => (c :: l) :: ls

/-- Model of `definition.split('\n')`. -/
def splitLines (s : Str) : List Str := splitOnChar '\n' s

/-- Model of `lines.join('\n')`. -/
def joinLines : List Str → Str
  | [] => []
  | [l] => l
  | l :: ls => l ++ '\n' :: joinLines ls

/-- The literal `scenario` of the codec. -/
def kwScenario : Str := ['s', 'c', 'e', 'n', 'a', 'r', 'i', 'o']

/-- The literal `end` of the codec. -/
def kwEndLine : Str := ['e', 'n', 'd']

/-- The literal `call` of the codec. -/
def kwCall : Str := ['c', 'a', 'l', 'l']

/-- The step keyword `given`. -/
def kwGiven : Str := ['g', 'i', 'v', 'e', 'n']

/-- The step keyword `when`. -/
def kwWhen : Str := ['w', 'h', 'e', 'n']

/-- The step keyword `then`. -/
def kwThen : Str := ['t', 'h', 'e', 'n']

/-- The step keyword `and`. -/
def kwAnd : Str := ['a', 'n', 'd']

/-- Case-insensitive literal match (the `/i` flag): the pattern `p` is
given in lowercase; on success returns the matched original characters
and the remainder. -/
def stripCI : Str → Str → Option (Str × Str)
  | [], s => some ([], s)
  | _ :: _, [] => none
  | p :: ps, c :: cs =>
    if c.toLower = p then
      match stripCI ps cs with
      | some (m, r) => some (c :: m, r)
      | none => none
    else none

/-- Case-sensitive literal match (no `/i` flag): returns the remainder. -/
def stripCS (p s : Str) : Option Str :=
  if p.isPrefixOf s then some (s.drop p.length) else none

/-- Model of `\s+` followed by a non-whitespace-starting element:
requires at least one whitespace character and consumes the maximal
run. -/
def stripWs1 (s : Str) : Option Str :=
  match s with
  | [] => none
  | c :: rest => if jsWhitespace c then some (rest.dropWhile jsWhitespace) else none

/-- The characters matched by `[^']+` (maximal run up to the first
quote or the end of the string). -/
def takeNoQuote : Str → Str
  | [] => []
  | c :: rest => if c = '\'' then [] else c :: takeNoQuote rest

/-- The remainder after `[^']+` (maximal run). -/
def dropNoQuote : Str → Str
  | [] => []
  | c :: rest => if c = '\'' then c :: rest else dropNoQuote rest

/-- Model of `'([^']+)'` at the current position: an opening quote, at
least one non-quote character (captured), and a closing quote. -/
def matchQuoted (s : Str) : Option (Str × Str) :=
  match s with
  | [] => none
  | c :: rest =>
    if c = '\'' then
      match takeNoQuote rest, dropNoQuote rest with
      | [], _ => none
      | txt, d :: rest2 => if d = '\'' then some (txt, rest2) else none
      | _, [] => none
    else none

/-- Model of the alternation `(given|when|then|and)` under `/i`:
returns the matched original characters and the remainder.  The four
keywords have pairwise distinct first letters, so at most one
alternative can match and the try order of the engine is irrelevant. -/
def matchKeywordCI (s : Str) : Option (Str × Str) :=
  stripCI kwGiven s <|> stripCI kwWhen s <|> stripCI kwThen s <|> stripCI kwAnd s

/-- Model of `(given|when|then|and)\s+'([^']+)'` (under `/i`) at the
current position: returns the matched keyword text and the quoted
capture. -/
def matchStepCore (s : Str) : Option (Str × Str) := do
  let (kw, r1) ← matchKeywordCI s
  let r2 ← stripWs1 r1
  let (txt, _) ← matchQuoted r2
  return (kw, txt)

/-- Model of `(?:call\s+)?(given|when|then|and)\s+'([^']+)'` (under
`/i`) anchored at the current position: the engine first tries the
optional `call` prefix and, if the rest of the pattern then fails,
retries without it at the same position. -/
def matchStepAt (s : Str) : Option (Str × Str) :=
  (match stripCI kwCall s with
   | some (_, r1) =>
     match stripWs1 r1 with
     | some r2 => matchStepCore r2
     | none => none
   | none => none) <|> matchStepCore s

/-- Leftmost match of the step pattern in a line, as
`line.match(/(?:call\s+)?(given|when|then|and)\s+'([^']+)'/i)`. -/
def findStepMatch : Str → Option (Str × Str)
  | [] => none
  | c :: rest => matchStepAt (c :: rest) <|> findStepMatch rest

/-- A parsed step `{type, text}` of `extractScenarioSteps`. -/
structure ScenarioStep where
  type : Str
  text : Str
deriving DecidableEq

/-- One iteration of the `extractScenarioSteps` loop: trim the line,
skip the `scenario` declaration and the `end` line, otherwise match the
step pattern and lowercase the keyword capture. -/
def stepOfLine (line : Str) : Option ScenarioStep :=
  let l := trimStr line
  if kwScenario.isPrefixOf l then none
  else if l = kwEndLine then none
  else
    match findStepMatch l with
    | some (kw, txt) => some ⟨kw.map Char.toLower, txt⟩
    | none => none

/-- Embedding of `extractScenarioSteps` (src/utils.ts lines 225-250):
split on newlines and collect a step from every line the pattern
recognises, in order. -/
def extractScenarioSteps (definition : Str) : List ScenarioStep :=
  if definition = [] then []
  else (splitLines definition).filterMap stepOfLine

/-- Model of `/scenario\s+'([^']+)'/i` anchored at the current
position. -/
def matchNameAt (s : Str) : Option Str := do
  let (_, r1) ← stripCI kwScenario s
  let r2 ← stripWs1 r1
  let (txt, _) ← matchQuoted r2
  return txt

/-- Leftmost match of the scenario-name pattern in the whole
definition text. -/
def findName : Str → Option Str
  | [] => none
  | c :: rest => matchNameAt (c :: rest) <|> findName rest

/-- Embedding of `extractScenarioName` (src/utils.ts lines 255-260). -/
def extractScenarioName (definition : Str) : Str :=
  if definition = [] then []
  else
    match findName definition with
    | some n => n
    | none => []

/-- The structured `{name, steps}` representation. -/
structure StructuredScenario where
  name : Str
  steps : List ScenarioStep
deriving DecidableEq

/-- Embedding of `scenarioToStructured` (src/utils.ts lines 265-270). -/
def scenarioToStructured (definition : Str) : StructuredScenario :=
  ⟨extractScenarioName definition, extractScenarioSteps definition⟩

/-- Embedding of `stepsToScenarioDefinition` (src/utils.ts lines
275-287): the header line, one `  call <type> '<text>'` line per step,
and the closing `end` line, each newline-terminated. -/
def stepsToScenarioDefinition (name : Str) (steps : List ScenarioStep) : Str :=
  (kwScenario ++ [' ', '\''] ++ name ++ ['\'', ' ', 'd', 'o', '\n'])
  ++ (steps.map (fun st =>
        [' ', ' '] ++ kwCall ++ [' '] ++ st.type ++ [' ', '\''] ++ st.text ++ ['\'', '\n'])).flatten
  ++ (kwEndLine ++ ['\n'])

/-- Model of the case-sensitive alternation `(given|when|then|and)` of
`formatScenarioDefinition` (no `/i` flag). -/
def matchKeywordCS (s : Str) : Option (Str × Str) :=
  (stripCS kwGiven s).map (fun r => (kwGiven, r))
  <|> (stripCS kwWhen s).map (fun r => (kwWhen, r))
  <|> (stripCS kwThen s).map (fun r => (kwThen, r))
  <|> (stripCS kwAnd s).map (fun r => (kwAnd, r))

/-- Model of `/call\s+(given|when|then|and)\s+/` anchored at the
current position: on success returns the captured keyword and the
remainder after the matched portion (the trailing `\s+` is greedy). -/
def matchCallReplAt (s : Str) : Option (Str × Str) := do
  let r1 ← stripCS kwCall s
  let r2 ← stripWs1 r1
  let (kw, r3) ← matchKeywordCS r2
  let r4 ← stripWs1 r3
  return (kw, r4)

/-- Model of `line.replace(/call\s+(given|when|then|and)\s+/, '$1 ')`:
replace the leftmost match, if any, by the captured keyword and a single
space. -/
def replaceCallOnce : Str → Str
  | [] => []
  | c :: rest =>
    match matchCallReplAt (c :: rest) with
    | some (kw, after) => kw ++ ' ' :: after
    | none => c :: replaceCallOnce rest

/-- One iteration of the `formatScenarioDefinition` map: keep the
`scenario` and `end` lines unchanged, rewrite the first
`call <keyword> ` occurrence of any other line. -/
def formatLine (line : Str) : Str :=
  if kwScenario.isPrefixOf (trimStr line) || trimStr line = kwEndLine then line
  else replaceCallOnce line

/-- Embedding of `formatScenarioDefinition` (src/utils.ts lines
205-220). -/
def formatScenarioDefinition (definition : Str) : Str :=
  if definition = [] then []
  else joinLines ((splitLines definition).map formatLine)

/-- A JavaScript value as it matters to the cache layer: only its
truthiness and identity are ever inspected. -/
inductive JSValue where
  | jsNull
  | jsUndefined
  | jsBool (b : Bool)
  | jsNum (n : Int)
  | jsStr (s : Str)
  | jsObj
deriving DecidableEq

/-- JavaScript truthiness of a value (`NaN` is not modelled; every
`jsNum` is a finite number). -/
def truthy : JSValue → Bool
  | .jsNull => false
  | .jsUndefined => false
  | .jsBool b => b
  | .jsNum n => n ≠ 0
  | .jsStr s => s ≠ []
  | .jsObj => true

/-- A cache entry `{data, timestamp}` (src/api-client.ts lines 6-9).
`Date.now()` values are integers. -/
structure CacheEntry (α : Type) where
  data : α
  timestamp : Int
deriving DecidableEq

/-- The `SimpleCache` state (src/api-client.ts lines 11-52): the
internal `Map` is modelled as a finite partial function from keys to
entries, together with the fixed TTL chosen at construction. -/
structure SimpleCache (α : Type) where
  entries : Str → Option (CacheEntry α)
  TTL : Int

/-- Embedding of the `SimpleCache` constructor (src/api-client.ts lines
15-19): `if (ttlMs) this.TTL = ttlMs` — a missing or zero (falsy)
argument keeps the default of 60000 ms. -/
def SimpleCache.create (ttlMs : Option Int) : SimpleCache α :=
  { entries := fun _ => none
    TTL := match ttlMs with
           | some t => if t ≠ 0 then t else 60 * 1000
           | none => 60 * 1000 }

/-- Embedding of `SimpleCache.get` (src/api-client.ts lines 21-33),
with the clock passed explicitly: a present entry older than TTL is
deleted lazily and reported absent. -/
def SimpleCache.get (c : SimpleCache α) (now : Int) (key : Str) :
    Option α × SimpleCache α :=
  match c.entries key with
  | none => (none, c)
  | some e =>
    if now - e.timestamp > c.TTL then
      (none, { c with entries := fun k => if k = key then none else c.entries k })
    else (some e.data, c)

/-- Embedding of `SimpleCache.set` (src/api-client.ts lines 35-40). -/
def SimpleCache.set (c : SimpleCache α) (key : Str) (data : α) (now : Int) :
    SimpleCache α :=
  { c with entries := fun k => if k = key then some ⟨data, now⟩ else c.entries k }

/-- Embedding of `SimpleCache.invalidate` (src/api-client.ts lines
42-47): exact-key removal, a no-op when the key is absent. -/
def SimpleCache.invalidate (c : SimpleCache α) (key : Str) : SimpleCache α :=
  { c with entries := fun k => if k = key then none else c.entries k }

/-- The literal `GET`. -/
def mGET : Str := ['G', 'E', 'T']

/-- The literal `projects`. -/
def segProjects : Str := ['p', 'r', 'o', 'j', 'e', 'c', 't', 's']

/-- The literal `GET:` key part. -/
def keyGET : Str := ['G', 'E', 'T', ':']

/-- The literal `?include=tags` suffix. -/
def inclTags : Str := ['?', 'i', 'n', 'c', 'l', 'u', 'd', 'e', '=', 't', 'a', 'g', 's']

/-- The literal `/tags` path segment part. -/
def slashTags : Str := ['/', 't', 'a', 'g', 's']

/-- Insertion into the `Set<string>` of keys: duplicates are kept
once, insertion order preserved. -/
def setAdd (ks : List Str) (k : Str) : List Str :=
  if k ∈ ks then ks else ks ++ [k]

/-- Model of `path.split('?')[0].split('/').filter(s => s)`. -/
def pathSegments (path : Str) : List Str :=
  (splitOnChar '/' ((splitOnChar '?' path).headD [])).filter (fun s => s ≠ [])

/-- Embedding of `invalidateCacheForPath` (src/api-client.ts lines
60-123), returning the set of cache keys passed one by one to
`SimpleCache.invalidate`; when the cache is disabled or the method is
GET the invalidator returns without deriving any key. -/
def invalidateCacheForPath (enableCache : Bool) (method path : Str) : List Str :=
  if !enableCache || method = mGET then []
  else
    let segs := pathSegments path
    let keys := setAdd [] (keyGET ++ path)
    if segs.length ≥ 2 ∧ segs.headD [] = segProjects then
      let projectId := segs.getD 1 []
      let projectPath := '/' :: segProjects ++ '/' :: projectId
      let keys := setAdd keys (keyGET ++ projectPath)
      if segs.length ≥ 3 then
        let resourceType := segs.getD 2 []
        let collectionPath := projectPath ++ '/' :: resourceType
        let keys := setAdd keys (keyGET ++ collectionPath)
        if segs.length ≥ 4 then
          let resourceId := segs.getD 3 []
          let specificResourcePath := collectionPath ++ '/' :: resourceId
          let keys := setAdd keys (keyGET ++ specificResourcePath)
          if segs.length ≥ 5 ∧ segs.getD 4 [] = ['t', 'a', 'g', 's'] then
            let keys := setAdd keys (keyGET ++ specificResourcePath ++ inclTags)
            let keys :=
              if segs.length ≥ 6 then
                let tagId := segs.getD 5 []
                setAdd keys (keyGET ++ specificResourcePath ++ slashTags ++ '/' :: tagId)
              else keys
            setAdd keys (keyGET ++ specificResourcePath ++ slashTags)
          else keys
        else keys
      else keys
    else keys

/-- Outcome of the cache-consultation prefix of
`makeCucumberStudioRequest` (src/api-client.ts lines 128-139): either
the cached body is returned without any network call, or the request
proceeds to the network. -/
inductive RequestPlan where
  | servedFromCache (v : JSValue)
  | networkCall
deriving DecidableEq

/-- Embedding of the cache consultation of `makeCucumberStudioRequest`:
for an enabled cache and a GET method, `requestCache.get` is consulted
and its result returned only when truthy (`if (cachedResponse)`); in
every other case the function proceeds to the network call. -/
def makeCucumberStudioRequest (enableCache : Bool) (cache : SimpleCache JSValue)
    (now : Int) (method path : Str) : RequestPlan :=
  let cacheKey := method ++ ':' :: path
  if method = mGET && enableCache then
    match (cache.get now cacheKey).1 with
    | some v => if truthy v then .servedFromCache v else .networkCall
    | none => .networkCall
  else .networkCall

/-- The six read-only tool names (server entry file). -/
def READ_OPERATIONS : List String :=
  ["cucumber_studio_get_projects",
   "cucumber_studio_get_project",
   "cucumber_studio_get_scenarios",
   "cucumber_studio_get_scenario",
   "cucumber_studio_find_scenarios_by_tags",
   "cucumber_studio_get_folders"]

/-- The ten write tool names (server entry file). -/
def WRITE_OPERATIONS : List String :=
  ["cucumber_studio_create_scenario",
   "cucumber_studio_update_scenario",
   "cucumber_studio_add_tag",
   "cucumber_studio_add_tags",
   "cucumber_studio_update_tag",
   "cucumber_studio_delete_tag",
   "cucumber_studio_delete_scenario",
   "cucumber_studio_create_folder",
   "cucumber_studio_update_folder",
   "cucumber_studio_delete_folder"]

/-- Embedding of `normalizeToolName` (src/utils.ts lines 8-16): strip
the first matching prefix of `mcp_cucumber_studio_` and `mcp_`. -/
def normalizeToolName (name : String) : String :=
  if ("mcp_cucumber_studio_").toList.isPrefixOf name.toList then
    String.mk (name.toList.drop 20)
  else if ("mcp_").toList.isPrefixOf name.toList then
    String.mk (name.toList.drop 4)
  else name

/-- Embedding of `isOperationAllowed` (server entry file): read
operations always pass, write operations are refused in read-only mode,
unknown names pass by default. -/
def isOperationAllowed (readOnlyMode : Bool) (toolName : String) : Bool :=
  if READ_OPERATIONS.contains toolName then true
  else if WRITE_OPERATIONS.contains toolName && readOnlyMode then false
  else true

/-- Outcome of the `CallToolRequestSchema` handler prefix: a rejection
response produced before any handler (and hence before any network
call) runs, or dispatch of the normalized tool name to the handler
switch. -/
inductive ToolCallOutcome where
  | rejectedReadOnly (originalName : String)
  | dispatched (toolName : String)
deriving DecidableEq, BEq

/-- Embedding of the gating prefix of the `CallToolRequestSchema`
handler (server entry file): normalize the requested name, reject with
an error response when the operation is not allowed in the current
mode, otherwise proceed to the tool switch. -/
def handleCallTool (readOnlyMode : Bool) (originalName : String) : ToolCallOutcome :=
  let toolName := normalizeToolName originalName
  if !isOperationAllowed readOnlyMode toolName then .rejectedReadOnly originalName
  else .dispatched toolName

/-- Embedding of `addTagsToScenario` (src/api-client.ts lines 284-319)
over the sequence of outcomes of the individual `addTagToScenario`
calls, which the loop performs in input order: successes are collected,
failures are logged and collected, and only the all-failed case is
raised as an error. -/
def addTagsToScenario (outcomes : List (Except ε ρ)) : Except String (List ρ) :=
  let acc := outcomes.foldl
    (fun (acc : List ρ × List ε) o =>
      match o with
      | .ok r => (acc.1 ++ [r], acc.2)
      | .error e => (acc.1, acc.2 ++ [e]))
    ([], [])
  if acc.2.length > 0 ∧ acc.1.length = 0 then
    .error ("Failed to add any tags to scenario. See logs for details.")
  else .ok acc.1

/-- Number of positions at which the literal `call` occurs in a line
(occurrences of `call` cannot overlap, since the word has no
self-overlap). -/
def countCallOcc : Str → Nat
  | [] => 0
  | c :: rest => (if kwCall.isPrefixOf (c :: rest) then 1 else 0) + countCallOcc rest

/-- The error component of an individual tag-addition outcome. -/
def errValue : Except ε ρ → Option ε
  | .error e => some e
  | .ok _ => none

/-! Basic lemmas about the string machinery. -/

theorem splitOnChar_ne_nil (sep : Char) (s : Str) : splitOnChar sep s ≠ [] := by
  induction s with
  | nil => simp [splitOnChar]
  | cons c rest ih =>
    simp only [splitOnChar]
    split
    · simp
    · cases h : splitOnChar sep rest with
      | nil => exact absurd h ih
      | cons l ls => simp

theorem splitOnChar_append_sep (sep : Char) (a b : Str) :
    splitOnChar sep (a ++ sep :: b) = splitOnChar sep a ++ splitOnChar sep b := by
  induction a with
  | nil => simp [splitOnChar]
  | cons c rest ih =>
    by_cases hc : c = sep
    · subst hc
      simp [splitOnChar, ih]
    · simp only [List.cons_append, List.append_eq, splitOnChar, if_neg hc]
      rw [ih]
      cases h : splitOnChar sep rest with
      | nil => exact absurd h (splitOnChar_ne_nil sep rest)
      | cons l ls => simp

theorem splitOnChar_eq_single (sep : Char) (a : Str) (h : sep ∉ a) :
    splitOnChar sep a = [a] := by
  induction a with
  | nil => simp [splitOnChar]
  | cons c rest ih =>
    simp only [List.mem_cons, not_or] at h
    simp [splitOnChar, Ne.symm h.1, ih h.2]

theorem splitLines_append (a b : Str) :
    splitLines (a ++ '\n' :: b) = splitLines a ++ splitLines b :=
  splitOnChar_append_sep '\n' a b

theorem splitLines_eq_single (a : Str) (h : '\n' ∉ a) : splitLines a = [a] :=
  splitOnChar_eq_single '\n' a h

theorem mem_splitOnChar_not_sep (sep : Char) (s : Str) :
    ∀ l ∈ splitOnChar sep s, sep ∉ l := by
  induction s with
  | nil => simp [splitOnChar]
  | cons c rest ih =>
    intro l hl
    simp only [splitOnChar] at hl
    by_cases hc : c = sep
    · rw [if_pos hc] at hl
      rcases List.mem_cons.1 hl with h | h
      · subst h; simp
      · exact ih l h
    · rw [if_neg hc] at hl
      cases hsp : splitOnChar sep rest with
      | nil => exact absurd hsp (splitOnChar_ne_nil sep rest)
      | cons m ms =>
        rw [hsp] at hl
        rcases List.mem_cons.1 hl with h | h
        · subst h
          intro hmem
          rcases List.mem_cons.1 hmem with h2 | h2
          · exact hc h2.symm
          · exact ih m (by rw [hsp]; simp) h2
        · exact ih l (by rw [hsp]; simp [h])

theorem splitLines_joinLines (ls : List Str) (hne : ls ≠ [])
    (h : ∀ l ∈ ls, '\n' ∉ l) : splitLines (joinLines ls) = ls := by
  induction ls with
  | nil => exact absurd rfl hne
  | cons l rest ih =>
    cases rest with
    | nil =>
      simp only [joinLines]
      exact splitLines_eq_single l (h l (by simp))
    | cons l2 rest2 =>
      have : joinLines (l :: l2 :: rest2) = l ++ '\n' :: joinLines (l2 :: rest2) := rfl
      rw [this, splitLines_append, splitLines_eq_single l (h l (by simp)),
        ih (by simp) (fun x hx => h x (by simp [hx]))]
      rfl

theorem trimLeft_cons_not_ws (c : Char) (t : Str) (h : jsWhitespace c = false) :
    trimLeft (c :: t) = c :: t := by
  simp [trimLeft, List.dropWhile_cons, h]

theorem trimRight_append_not_ws (t : Str) (c : Char) (h : jsWhitespace c = false) :
    trimRight (t ++ [c]) = t ++ [c] := by
  simp [trimRight, List.dropWhile_cons, h]

theorem trimStr_of_not_ws (c d : Char) (m : Str)
    (hc : jsWhitespace c = false) (hd : jsWhitespace d = false) :
    trimStr (c :: m ++ [d]) = c :: m ++ [d] := by
  have h1 : trimRight (c :: m ++ [d]) = c :: m ++ [d] := by
    have := trimRight_append_not_ws (c :: m) d hd
    simpa using this
  have h2 : trimLeft (c :: (m ++ [d])) = c :: (m ++ [d]) :=
    trimLeft_cons_not_ws c (m ++ [d]) hc
  simp only [trimStr, h1]
  simpa using h2

theorem takeNoQuote_append (t r : Str) (h : '\'' ∉ t) :
    takeNoQuote (t ++ '\'' :: r) = t := by
  induction t with
  | nil => simp [takeNoQuote]
  | cons c ct ih =>
    simp only [List.mem_cons, not_or] at h
    have hc : c ≠ '\'' := fun e => h.1 e.symm
    simp only [List.cons_append, List.append_eq, takeNoQuote, if_neg hc]
    rw [ih h.2]

theorem dropNoQuote_append (t r : Str) (h : '\'' ∉ t) :
    dropNoQuote (t ++ '\'' :: r) = '\'' :: r := by
  induction t with
  | nil => simp [dropNoQuote]
  | cons c ct ih =>
    simp only [List.mem_cons, not_or] at h
    have hc : c ≠ '\'' := fun e => h.1 e.symm
    simp only [List.cons_append, List.append_eq, dropNoQuote, if_neg hc]
    exact ih h.2

theorem matchQuoted_exact (t r : Str) (hne : t ≠ []) (h : '\'' ∉ t) :
    matchQuoted ('\'' :: (t ++ '\'' :: r)) = some (t, r) := by
  have h1 := takeNoQuote_append t r h
  have h2 := dropNoQuote_append t r h
  cases t with
  | nil => exact absurd rfl hne
  | cons c ct =>
    simp only [matchQuoted]
    rw [h1, h2]
    simp


theorem stripCI_self (p r : Str) (h : ∀ c ∈ p, Char.toLower c = c) :
    stripCI p (p ++ r) = some (p, r) := by
  induction p with
  | nil => simp [stripCI]
  | cons c ct ih =>
    have hc := h c (by simp)
    simp only [List.cons_append, List.append_eq, stripCI]
    rw [if_pos hc, ih (fun x hx => h x (by simp [hx]))]

theorem stripCI_head_ne (ph ch : Char) (pt ct : Str) (h : ch.toLower ≠ ph) :
    stripCI (ph :: pt) (ch :: ct) = none := by
  simp [stripCI, h]

theorem dropWhile_ws_cons (c : Char) (t : Str) (h : jsWhitespace c = false) :
    List.dropWhile jsWhitespace (c :: t) = c :: t := by
  simp [List.dropWhile_cons, h]

theorem stripWs1_space (c : Char) (t : Str) (h : jsWhitespace c = false) :
    stripWs1 (' ' :: c :: t) = some (c :: t) := by
  simp [stripWs1, show jsWhitespace ' ' = true from rfl, dropWhile_ws_cons c t h]

theorem matchKeywordCI_given (r : Str) :
    matchKeywordCI (kwGiven ++ r) = some (kwGiven, r) := by
  unfold matchKeywordCI
  rw [stripCI_self kwGiven r (by decide)]
  rfl

theorem matchKeywordCI_when (r : Str) :
    matchKeywordCI (kwWhen ++ r) = some (kwWhen, r) := by
  have h1 : stripCI kwGiven (kwWhen ++ r) = none :=
    stripCI_head_ne 'g' 'w' ['i', 'v', 'e', 'n'] (['h', 'e', 'n'] ++ r) (by decide)
  unfold matchKeywordCI
  rw [h1, stripCI_self kwWhen r (by decide)]
  rfl

theorem matchKeywordCI_then (r : Str) :
    matchKeywordCI (kwThen ++ r) = some (kwThen, r) := by
  have h1 : stripCI kwGiven (kwThen ++ r) = none :=
    stripCI_head_ne 'g' 't' ['i', 'v', 'e', 'n'] (['h', 'e', 'n'] ++ r) (by decide)
  have h2 : stripCI kwWhen (kwThen ++ r) = none :=
    stripCI_head_ne 'w' 't' ['h', 'e', 'n'] (['h', 'e', 'n'] ++ r) (by decide)
  unfold matchKeywordCI
  rw [h1, h2, stripCI_self kwThen r (by decide)]
  rfl

theorem matchKeywordCI_and (r : Str) :
    matchKeywordCI (kwAnd ++ r) = some (kwAnd, r) := by
  have h1 : stripCI kwGiven (kwAnd ++ r) = none :=
    stripCI_head_ne 'g' 'a' ['i', 'v', 'e', 'n'] (['n', 'd'] ++ r) (by decide)
  have h2 : stripCI kwWhen (kwAnd ++ r) = none :=
    stripCI_head_ne 'w' 'a' ['h', 'e', 'n'] (['n', 'd'] ++ r) (by decide)
  have h3 : stripCI kwThen (kwAnd ++ r) = none :=
    stripCI_head_ne 't' 'a' ['h', 'e', 'n'] (['n', 'd'] ++ r) (by decide)
  unfold matchKeywordCI
  rw [h1, h2, h3, stripCI_self kwAnd r (by decide)]
  rfl

theorem matchStepCore_generated (ty tx r : Str)
    (hty : ty = kwGiven ∨ ty = kwWhen ∨ ty = kwThen ∨ ty = kwAnd)
    (htx : tx ≠ []) (hq : '\'' ∉ tx) :
    matchStepCore (ty ++ (' ' :: '\'' :: (tx ++ '\'' :: r))) = some (ty, tx) := by
  have hkw : matchKeywordCI (ty ++ (' ' :: '\'' :: (tx ++ '\'' :: r))) =
      some (ty, ' ' :: '\'' :: (tx ++ '\'' :: r)) := by
    rcases hty with h | h | h | h <;> subst h
    · exact matchKeywordCI_given _
    · exact matchKeywordCI_when _
    · exact matchKeywordCI_then _
    · exact matchKeywordCI_and _
  have hws : stripWs1 (' ' :: '\'' :: (tx ++ '\'' :: r)) = some ('\'' :: (tx ++ '\'' :: r)) :=
    stripWs1_space '\'' (tx ++ '\'' :: r) (by decide)
  have hq2 : matchQuoted ('\'' :: (tx ++ '\'' :: r)) = some (tx, r) :=
    matchQuoted_exact tx r htx hq
  simp [matchStepCore, hkw, hws, hq2]

theorem matchStepAt_generated (ty tx r : Str)
    (hty : ty = kwGiven ∨ ty = kwWhen ∨ ty = kwThen ∨ ty = kwAnd)
    (htx : tx ≠ []) (hq : '\'' ∉ tx) :
    matchStepAt (kwCall ++ (' ' :: (ty ++ (' ' :: '\'' :: (tx ++ '\'' :: r))))) =
      some (ty, tx) := by
  have hcall : stripCI kwCall (kwCall ++ (' ' :: (ty ++ (' ' :: '\'' :: (tx ++ '\'' :: r))))) =
      some (kwCall, ' ' :: (ty ++ (' ' :: '\'' :: (tx ++ '\'' :: r)))) :=
    stripCI_self kwCall _ (by decide)
  have hty0 : jsWhitespace (ty.headD ' ') = false ∧ ty ≠ [] := by
    rcases hty with h | h | h | h <;> subst h <;> exact ⟨by decide, by decide⟩
  have hws : stripWs1 (' ' :: (ty ++ (' ' :: '\'' :: (tx ++ '\'' :: r)))) =
      some (ty ++ (' ' :: '\'' :: (tx ++ '\'' :: r))) := by
    cases hty' : ty with
    | nil => exact absurd hty' hty0.2
    | cons c ct =>
      rw [hty'] at hty0
      exact stripWs1_space c (ct ++ (' ' :: '\'' :: (tx ++ '\'' :: r))) (by simpa using hty0.1)
  simp only [matchStepAt, hcall, hws, matchStepCore_generated ty tx r hty htx hq]
  rfl

theorem findStepMatch_pos (s : Str) (p : Str × Str) (h : matchStepAt s = some p) :
    findStepMatch s = some p := by
  cases s with
  | nil =>
    rw [show matchStepAt [] = none from rfl] at h
    exact absurd h (by simp)
  | cons c rest => simp [findStepMatch, h]

theorem findName_pos (s : Str) (n : Str) (h : matchNameAt s = some n) :
    findName s = some n := by
  cases s with
  | nil =>
    rw [show matchNameAt [] = none from rfl] at h
    exact absurd h (by simp)
  | cons c rest => simp [findName, h]

theorem isPrefixOf_head_ne (a b : Char) (as bs : Str) (h : a ≠ b) :
    (a :: as).isPrefixOf (b :: bs) = false := by
  simp [List.isPrefixOf, h]

theorem isPrefixOf_append_self (p r : Str) : p.isPrefixOf (p ++ r) = true := by
  exact List.isPrefixOf_iff_prefix.2 (List.prefix_append p r)

theorem trimStr_cons_snoc (c d : Char) (m : Str)
    (hc : jsWhitespace c = false) (hd : jsWhitespace d = false) :
    trimStr (c :: (m ++ [d])) = c :: (m ++ [d]) := by
  have := trimStr_of_not_ws c d m hc hd
  simpa using this

theorem stepOfLine_generated (ty tx : Str)
    (hty : ty = kwGiven ∨ ty = kwWhen ∨ ty = kwThen ∨ ty = kwAnd)
    (htx : tx ≠ []) (hq : '\'' ∉ tx) :
    stepOfLine (' ' :: ' ' :: (kwCall ++ (' ' :: (ty ++ (' ' :: '\'' :: (tx ++ ['\''])))))) =
      some ⟨ty, tx⟩ := by
  have hcore : (kwCall ++ (' ' :: (ty ++ (' ' :: '\'' :: (tx ++ ['\''])))) : Str) =
      'c' :: ((['a', 'l', 'l'] ++ (' ' :: (ty ++ (' ' :: '\'' :: tx)))) ++ ['\'']) := by
    simp [kwCall]
  have htrimR : trimRight (' ' :: ' ' :: (kwCall ++ (' ' :: (ty ++ (' ' :: '\'' :: (tx ++ ['\''])))))) =
      ' ' :: ' ' :: (kwCall ++ (' ' :: (ty ++ (' ' :: '\'' :: (tx ++ ['\'']))))) := by
    have hshape : (' ' :: ' ' :: (kwCall ++ (' ' :: (ty ++ (' ' :: '\'' :: (tx ++ ['\'']))))) : Str) =
        (' ' :: ' ' :: (kwCall ++ (' ' :: (ty ++ (' ' :: '\'' :: tx))))) ++ ['\''] := by
      simp
    rw [hshape, trimRight_append_not_ws _ '\'' (by decide)]
  have htrim : trimStr (' ' :: ' ' :: (kwCall ++ (' ' :: (ty ++ (' ' :: '\'' :: (tx ++ ['\''])))))) =
      kwCall ++ (' ' :: (ty ++ (' ' :: '\'' :: (tx ++ ['\''])))) := by
    rw [trimStr, htrimR, trimLeft]
    rw [List.dropWhile_cons, if_pos (by decide), List.dropWhile_cons, if_pos (by decide)]
    rw [hcore, dropWhile_ws_cons _ _ (by decide), ← hcore]
  have hg1 : kwScenario.isPrefixOf (kwCall ++ (' ' :: (ty ++ (' ' :: '\'' :: (tx ++ ['\'']))))) = false := by
    rw [hcore]
    exact isPrefixOf_head_ne 's' 'c' _ _ (by decide)
  have hg2 : (kwCall ++ (' ' :: (ty ++ (' ' :: '\'' :: (tx ++ ['\''])))) : Str) ≠ kwEndLine := by
    rw [hcore]
    simp [kwEndLine]
  have hmatch : findStepMatch (kwCall ++ (' ' :: (ty ++ (' ' :: '\'' :: (tx ++ ['\'']))))) =
      some (ty, tx) :=
    findStepMatch_pos _ _ (matchStepAt_generated ty tx [] hty htx hq)
  have hlow : ty.map Char.toLower = ty := by
    rcases hty with h | h | h | h <;> subst h <;> decide
  simp only [stepOfLine, htrim, hg1, Bool.false_eq_true, if_false, if_neg hg2, hmatch, hlow]

theorem stepOfLine_header (name : Str) :
    stepOfLine (kwScenario ++ (' ' :: '\'' :: (name ++ ['\'', ' ', 'd', 'o']))) = none := by
  have hshape : (kwScenario ++ (' ' :: '\'' :: (name ++ ['\'', ' ', 'd', 'o'])) : Str) =
      's' :: ((['c', 'e', 'n', 'a', 'r', 'i', 'o'] ++ (' ' :: '\'' :: (name ++ ['\'', ' ', 'd']))) ++ ['o']) := by
    simp [kwScenario]
  have htrim : trimStr (kwScenario ++ (' ' :: '\'' :: (name ++ ['\'', ' ', 'd', 'o']))) =
      kwScenario ++ (' ' :: '\'' :: (name ++ ['\'', ' ', 'd', 'o'])) := by
    rw [hshape, trimStr_cons_snoc 's' 'o' _ (by decide) (by decide)]
  have hpre : kwScenario.isPrefixOf
      (kwScenario ++ (' ' :: '\'' :: (name ++ ['\'', ' ', 'd', 'o']))) = true :=
    isPrefixOf_append_self kwScenario _
  simp only [stepOfLine, htrim, hpre, if_true]

theorem stepOfLine_end_line : stepOfLine kwEndLine = none := by decide

theorem stepOfLine_nil : stepOfLine [] = none := by decide

theorem matchNameAt_generated (name r : Str) (hne : name ≠ []) (hq : '\'' ∉ name) :
    matchNameAt (kwScenario ++ (' ' :: '\'' :: (name ++ '\'' :: r))) = some name := by
  have h1 : stripCI kwScenario (kwScenario ++ (' ' :: '\'' :: (name ++ '\'' :: r))) =
      some (kwScenario, ' ' :: '\'' :: (name ++ '\'' :: r)) :=
    stripCI_self kwScenario _ (by decide)
  have h2 : stripWs1 (' ' :: '\'' :: (name ++ '\'' :: r)) =
      some ('\'' :: (name ++ '\'' :: r)) :=
    stripWs1_space '\'' _ (by decide)
  have h3 : matchQuoted ('\'' :: (name ++ '\'' :: r)) = some (name, r) :=
    matchQuoted_exact name r hne hq
  simp [matchNameAt, h1, h2, h3]

theorem splitLines_gen_body (steps : List ScenarioStep)
    (h : ∀ st ∈ steps,
      (st.type = kwGiven ∨ st.type = kwWhen ∨ st.type = kwThen ∨ st.type = kwAnd) ∧
      '\n' ∉ st.text) :
    splitLines ((steps.map (fun st =>
        [' ', ' '] ++ kwCall ++ [' '] ++ st.type ++ [' ', '\''] ++ st.text ++ ['\'', '\n'])).flatten
      ++ (kwEndLine ++ ['\n'])) =
    steps.map (fun st =>
        ' ' :: ' ' :: (kwCall ++ (' ' :: (st.type ++ (' ' :: '\'' :: (st.text ++ ['\'']))))))
      ++ [kwEndLine, []] := by
  induction steps with
  | nil =>
    show splitLines (kwEndLine ++ '\n' :: []) = [kwEndLine, []]
    rw [splitLines_append, splitLines_eq_single kwEndLine (by decide)]
    rfl
  | cons st rest ih =>
    have hst := h st (by simp)
    have hline : '\n' ∉
        (' ' :: ' ' :: (kwCall ++ (' ' :: (st.type ++ (' ' :: '\'' :: (st.text ++ ['\''])))))) := by
      rcases hst.1 with hk | hk | hk | hk <;>
        simp [hk, kwCall, kwGiven, kwWhen, kwThen, kwAnd, hst.2]
    have hshape :
        ((st :: rest).map (fun st =>
          [' ', ' '] ++ kwCall ++ [' '] ++ st.type ++ [' ', '\''] ++ st.text ++ ['\'', '\n'])).flatten
          ++ (kwEndLine ++ ['\n']) =
        (' ' :: ' ' :: (kwCall ++ (' ' :: (st.type ++ (' ' :: '\'' :: (st.text ++ ['\''])))))) ++
          '\n' :: ((rest.map (fun st =>
            [' ', ' '] ++ kwCall ++ [' '] ++ st.type ++ [' ', '\''] ++ st.text ++ ['\'', '\n'])).flatten
            ++ (kwEndLine ++ ['\n'])) := by
      simp
    rw [hshape, splitLines_append, splitLines_eq_single _ hline,
      ih (fun x hx => h x (by simp [hx]))]
    rfl

theorem splitLines_generated (name : Str) (steps : List ScenarioStep)
    (hn : '\n' ∉ name)
    (h : ∀ st ∈ steps,
      (st.type = kwGiven ∨ st.type = kwWhen ∨ st.type = kwThen ∨ st.type = kwAnd) ∧
      '\n' ∉ st.text) :
    splitLines (stepsToScenarioDefinition name steps) =
      (kwScenario ++ (' ' :: '\'' :: (name ++ ['\'', ' ', 'd', 'o']))) ::
      (steps.map (fun st =>
        ' ' :: ' ' :: (kwCall ++ (' ' :: (st.type ++ (' ' :: '\'' :: (st.text ++ ['\''])))))))
      ++ [kwEndLine, []] := by
  have hhd : '\n' ∉ (kwScenario ++ (' ' :: '\'' :: (name ++ ['\'', ' ', 'd', 'o']))) := by
    simp [kwScenario, hn]
  have hshape : stepsToScenarioDefinition name steps =
      (kwScenario ++ (' ' :: '\'' :: (name ++ ['\'', ' ', 'd', 'o']))) ++
        '\n' :: ((steps.map (fun st =>
          [' ', ' '] ++ kwCall ++ [' '] ++ st.type ++ [' ', '\''] ++ st.text ++ ['\'', '\n'])).flatten
          ++ (kwEndLine ++ ['\n'])) := by
    simp [stepsToScenarioDefinition]
  rw [hshape, splitLines_append, splitLines_eq_single _ hhd, splitLines_gen_body steps h]
  rfl

theorem filterMap_gen_steps (steps : List ScenarioStep)
    (h : ∀ st ∈ steps,
      (st.type = kwGiven ∨ st.type = kwWhen ∨ st.type = kwThen ∨ st.type = kwAnd) ∧
      st.text ≠ [] ∧ '\'' ∉ st.text) :
    (steps.map (fun st =>
      ' ' :: ' ' :: (kwCall ++ (' ' :: (st.type ++ (' ' :: '\'' :: (st.text ++ ['\'']))))))).filterMap
      stepOfLine = steps := by
  induction steps with
  | nil => rfl
  | cons st rest ih =>
    have hst := h st (by simp)
    have hline : stepOfLine
        (' ' :: ' ' :: (kwCall ++ (' ' :: (st.type ++ (' ' :: '\'' :: (st.text ++ ['\''])))))) =
        some st := by
      rw [stepOfLine_generated st.type st.text hst.1 hst.2.1 hst.2.2]
    simp only [List.map_cons, List.filterMap_cons, hline,
      ih (fun x hx => h x (by simp [hx]))]

theorem stepsToScenarioDefinition_ne_nil (name : Str) (steps : List ScenarioStep) :
    stepsToScenarioDefinition name steps ≠ [] := by
  simp [stepsToScenarioDefinition, kwScenario]

theorem extractScenarioSteps_generated (name : Str) (steps : List ScenarioStep)
    (hn : '\n' ∉ name)
    (h : ∀ st ∈ steps,
      (st.type = kwGiven ∨ st.type = kwWhen ∨ st.type = kwThen ∨ st.type = kwAnd) ∧
      st.text ≠ [] ∧ '\'' ∉ st.text ∧ '\n' ∉ st.text) :
    extractScenarioSteps (stepsToScenarioDefinition name steps) = steps := by
  rw [extractScenarioSteps, if_neg (stepsToScenarioDefinition_ne_nil name steps),
    splitLines_generated name steps hn
      (fun st hst => ⟨(h st hst).1, (h st hst).2.2.2⟩)]
  simp only [List.filterMap_cons, stepOfLine_header name, List.filterMap_append,
    filterMap_gen_steps steps (fun st hst => ⟨(h st hst).1, (h st hst).2.1, (h st hst).2.2.1⟩),
    show ([kwEndLine, []] : List Str).filterMap stepOfLine = [] from by decide]
  simp

theorem extractScenarioName_generated (name : Str) (steps : List ScenarioStep)
    (hne : name ≠ []) (hq : '\'' ∉ name) :
    extractScenarioName (stepsToScenarioDefinition name steps) = name := by
  have hshape : stepsToScenarioDefinition name steps =
      kwScenario ++ (' ' :: '\'' :: (name ++ '\'' ::
        ([' ', 'd', 'o', '\n'] ++ ((steps.map (fun st =>
          [' ', ' '] ++ kwCall ++ [' '] ++ st.type ++ [' ', '\''] ++ st.text ++ ['\'', '\n'])).flatten
          ++ (kwEndLine ++ ['\n']))))) := by
    simp [stepsToScenarioDefinition]
  rw [extractScenarioName, if_neg (stepsToScenarioDefinition_ne_nil name steps), hshape,
    findName_pos _ name (matchNameAt_generated name _ hne hq)]

theorem extractScenarioSteps_eq_filterMap (x : Str) :
    extractScenarioSteps x = (splitLines x).filterMap stepOfLine := by
  cases x with
  | nil => decide
  | cons c rest => rw [extractScenarioSteps, if_neg (by simp)]

theorem stripCI_sound (p : Str) :
    ∀ s m r, stripCI p s = some (m, r) → m.map Char.toLower = p ∧ s = m ++ r := by
  induction p with
  | nil =>
    intro s m r h
    simp [stripCI] at h
    simp [h.1, h.2]
  | cons pc pt ih =>
    intro s m r h
    cases s with
    | nil => simp [stripCI] at h
    | cons c cs =>
      simp only [stripCI] at h
      by_cases hc : c.toLower = pc
      · rw [if_pos hc] at h
        cases hrec : stripCI pt cs with
        | none => rw [hrec] at h; simp at h
        | some pr =>
          rw [hrec] at h
          obtain ⟨m2, r2⟩ := pr
          simp only [] at h
          obtain ⟨hm, hr⟩ := Prod.mk.injEq .. ▸ (Option.some.injEq .. ▸ h)
          have := ih cs m2 r2 hrec
          subst hr
          rw [← hm]
          simp [this.1, this.2, hc]
      · rw [if_neg hc] at h
        simp at h

theorem mem_takeNoQuote_ne (s : Str) : ∀ c ∈ takeNoQuote s, c ≠ '\'' := by
  induction s with
  | nil => simp [takeNoQuote]
  | cons c rest ih =>
    simp only [takeNoQuote]
    by_cases hc : c = '\''
    · simp [hc]
    · rw [if_neg hc]
      intro x hx
      rcases List.mem_cons.1 hx with h | h
      · subst h; exact hc
      · exact ih x h

theorem matchQuoted_sound (s txt r : Str) (h : matchQuoted s = some (txt, r)) :
    txt ≠ [] ∧ '\'' ∉ txt := by
  cases s with
  | nil => simp [matchQuoted] at h
  | cons c cs =>
    simp only [matchQuoted] at h
    by_cases hc : c = '\''
    · rw [if_pos hc] at h
      cases htk : takeNoQuote cs with
      | nil => rw [htk] at h; simp at h
      | cons t ts =>
        rw [htk] at h
        cases hdr : dropNoQuote cs with
        | nil => rw [hdr] at h; simp at h
        | cons d ds =>
          rw [hdr] at h
          have h2 : (if d = '\'' then some (t :: ts, ds) else none) = some (txt, r) := h
          by_cases hd : d = '\''
          · rw [if_pos hd] at h2
            simp only [Option.some.injEq, Prod.mk.injEq] at h2
            have htxt : txt = t :: ts := h2.1.symm
            subst htxt
            refine ⟨by simp, fun hm => ?_⟩
            exact absurd rfl (mem_takeNoQuote_ne cs '\'' (htk ▸ hm))
          · rw [if_neg hd] at h2
            simp at h2
    · rw [if_neg hc] at h
      simp at h

theorem matchKeywordCI_sound (s kw r : Str) (h : matchKeywordCI s = some (kw, r)) :
    kw.map Char.toLower = kwGiven ∨ kw.map Char.toLower = kwWhen ∨
    kw.map Char.toLower = kwThen ∨ kw.map Char.toLower = kwAnd := by
  unfold matchKeywordCI at h
  cases h1 : stripCI kwGiven s with
  | some p =>
    rw [h1] at h
    have hp : p = (kw, r) := by simpa using h
    exact Or.inl (stripCI_sound kwGiven s kw r (by rw [h1, hp])).1
  | none =>
    rw [h1] at h
    simp only [Option.none_orElse] at h
    cases h2 : stripCI kwWhen s with
    | some p =>
      rw [h2] at h
      have hp : p = (kw, r) := by simpa using h
      exact Or.inr (Or.inl (stripCI_sound kwWhen s kw r (by rw [h2, hp])).1)
    | none =>
      rw [h2] at h
      simp only [Option.none_orElse] at h
      cases h3 : stripCI kwThen s with
      | some p =>
        rw [h3] at h
        have hp : p = (kw, r) := by simpa using h
        exact Or.inr (Or.inr (Or.inl (stripCI_sound kwThen s kw r (by rw [h3, hp])).1))
      | none =>
        rw [h3] at h
        simp only [Option.none_orElse] at h
        exact Or.inr (Or.inr (Or.inr (stripCI_sound kwAnd s kw r h).1))

theorem matchStepCore_sound (s kw txt : Str) (h : matchStepCore s = some (kw, txt)) :
    (kw.map Char.toLower = kwGiven ∨ kw.map Char.toLower = kwWhen ∨
     kw.map Char.toLower = kwThen ∨ kw.map Char.toLower = kwAnd) ∧
    txt ≠ [] ∧ '\'' ∉ txt := by
  unfold matchStepCore at h
  cases h1 : matchKeywordCI s with
  | none => rw [h1] at h; simp at h
  | some p =>
    obtain ⟨kw1, r1⟩ := p
    rw [h1] at h
    simp only [Option.bind_eq_bind, Option.some_bind] at h
    cases h2 : stripWs1 r1 with
    | none => rw [h2] at h; simp at h
    | some r2 =>
      rw [h2] at h
      simp only [Option.some_bind] at h
      cases h3 : matchQuoted r2 with
      | none => rw [h3] at h; simp at h
      | some q =>
        obtain ⟨txt1, r3⟩ := q
        rw [h3] at h
        have hpair : (kw1, txt1) = (kw, txt) := by simpa using h
        have h4 : kw1 = kw := congrArg Prod.fst hpair
        have h5 : txt1 = txt := congrArg Prod.snd hpair
        subst h4
        subst h5
        exact ⟨matchKeywordCI_sound s kw1 r1 h1, matchQuoted_sound r2 txt1 r3 h3⟩

theorem matchStepAt_sound (s kw txt : Str) (h : matchStepAt s = some (kw, txt)) :
    (kw.map Char.toLower = kwGiven ∨ kw.map Char.toLower = kwWhen ∨
     kw.map Char.toLower = kwThen ∨ kw.map Char.toLower = kwAnd) ∧
    txt ≠ [] ∧ '\'' ∉ txt := by
  unfold matchStepAt at h
  cases hb : (match stripCI kwCall s with
   | some (_, r1) =>
     match stripWs1 r1 with
     | some r2 => matchStepCore r2
     | none => none
   | none => none) with
  | some p =>
    rw [hb] at h
    have hp : p = (kw, txt) := by simpa using h
    subst hp
    cases h1 : stripCI kwCall s with
    | none =>
      rw [h1] at hb
      exact absurd hb (by simp)
    | some q =>
      obtain ⟨m1, r1⟩ := q
      rw [h1] at hb
      have hb2 : (match stripWs1 r1 with
        | some r2 => matchStepCore r2
        | none => none) = some (kw, txt) := hb
      cases h2 : stripWs1 r1 with
      | none =>
        rw [h2] at hb2
        exact absurd hb2 (by simp)
      | some r2 =>
        rw [h2] at hb2
        exact matchStepCore_sound r2 kw txt hb2
  | none =>
    rw [hb] at h
    simp only [Option.none_orElse] at h
    exact matchStepCore_sound s kw txt h

theorem findStepMatch_sound (s kw txt : Str) (h : findStepMatch s = some (kw, txt)) :
    (kw.map Char.toLower = kwGiven ∨ kw.map Char.toLower = kwWhen ∨
     kw.map Char.toLower = kwThen ∨ kw.map Char.toLower = kwAnd) ∧
    txt ≠ [] ∧ '\'' ∉ txt := by
  induction s with
  | nil => simp [findStepMatch] at h
  | cons c rest ih =>
    rw [findStepMatch] at h
    cases h1 : matchStepAt (c :: rest) with
    | some p =>
      rw [h1] at h
      have hp : p = (kw, txt) := by simpa using h
      exact matchStepAt_sound (c :: rest) kw txt (by rw [h1, hp])
    | none =>
      rw [h1] at h
      simp only [Option.none_orElse] at h
      exact ih h

theorem stepOfLine_sound (line : Str) (st : ScenarioStep) (h : stepOfLine line = some st) :
    (st.type = kwGiven ∨ st.type = kwWhen ∨ st.type = kwThen ∨ st.type = kwAnd) ∧
    st.text ≠ [] ∧ '\'' ∉ st.text := by
  unfold stepOfLine at h
  by_cases h1 : kwScenario.isPrefixOf (trimStr line) = true
  · rw [if_pos h1] at h
    exact absurd h (by simp)
  · rw [if_neg h1] at h
    by_cases h2 : trimStr line = kwEndLine
    · rw [if_pos h2] at h
      exact absurd h (by simp)
    · rw [if_neg h2] at h
      cases h3 : findStepMatch (trimStr line) with
      | none => rw [h3] at h; simp at h
      | some p =>
        obtain ⟨kw, txt⟩ := p
        rw [h3] at h
        simp only [Option.some.injEq] at h
        have hsound := findStepMatch_sound (trimStr line) kw txt h3
        rw [← h]
        exact ⟨hsound.1, hsound.2.1, hsound.2.2⟩

theorem extractScenarioSteps_sound (definition : Str) (st : ScenarioStep)
    (h : st ∈ extractScenarioSteps definition) :
    (st.type = kwGiven ∨ st.type = kwWhen ∨ st.type = kwThen ∨ st.type = kwAnd) ∧
    st.text ≠ [] ∧ '\'' ∉ st.text := by
  rw [extractScenarioSteps_eq_filterMap] at h
  obtain ⟨line, -, hline⟩ := List.mem_filterMap.1 h
  exact stepOfLine_sound line st hline

theorem stepOfLine_none_of (l : Str)
    (h1 : kwScenario.isPrefixOf (trimStr l) = false) (h2 : trimStr l ≠ kwEndLine)
    (h3 : findStepMatch (trimStr l) = none) : stepOfLine l = none := by
  simp only [stepOfLine, h1, h2, h3]
  simp

theorem countCallOcc_cons_ge (c : Char) (t : Str) :
    countCallOcc t ≤ countCallOcc (c :: t) := by
  rw [countCallOcc]
  omega

theorem countCallOcc_append_ge (a b : Str) :
    countCallOcc b ≤ countCallOcc (a ++ b) := by
  induction a with
  | nil => simp
  | cons c rest ih =>
    calc countCallOcc b ≤ countCallOcc (rest ++ b) := ih
    _ ≤ countCallOcc (c :: (rest ++ b)) := countCallOcc_cons_ge c (rest ++ b)
    _ = countCallOcc ((c :: rest) ++ b) := rfl

theorem countCallOcc_call_prefix (z : Str) :
    1 + countCallOcc z ≤ countCallOcc (kwCall ++ z) := by
  have hpre : kwCall.isPrefixOf ('c' :: (['a', 'l', 'l'] ++ z)) = true :=
    isPrefixOf_append_self kwCall z
  have h1 : countCallOcc (kwCall ++ z) =
      1 + countCallOcc (['a', 'l', 'l'] ++ z) := by
    rw [show (kwCall ++ z : Str) = 'c' :: (['a', 'l', 'l'] ++ z) from rfl, countCallOcc,
      if_pos hpre]
  have h2 : countCallOcc z ≤ countCallOcc (['a', 'l', 'l'] ++ z) :=
    countCallOcc_append_ge ['a', 'l', 'l'] z
  omega

theorem two_occ_ge_two (u v w : Str) :
    2 ≤ countCallOcc (u ++ (kwCall ++ (v ++ (kwCall ++ w)))) := by
  have h1 : countCallOcc (kwCall ++ (v ++ (kwCall ++ w))) ≤
      countCallOcc (u ++ (kwCall ++ (v ++ (kwCall ++ w)))) :=
    countCallOcc_append_ge u _
  have h2 := countCallOcc_call_prefix (v ++ (kwCall ++ w))
  have h3 : countCallOcc (kwCall ++ w) ≤ countCallOcc (v ++ (kwCall ++ w)) :=
    countCallOcc_append_ge v _
  have h4 := countCallOcc_call_prefix w
  omega

theorem countCallOcc_pos_decomp (l : Str) (h : 1 ≤ countCallOcc l) :
    ∃ p q, l = p ++ (kwCall ++ q) := by
  induction l with
  | nil => simp [countCallOcc] at h
  | cons c rest ih =>
    by_cases hp : kwCall.isPrefixOf (c :: rest) = true
    · obtain ⟨q, hq⟩ := List.isPrefixOf_iff_prefix.1 hp
      exact ⟨[], q, by rw [← hq]; rfl⟩
    · rw [countCallOcc, if_neg hp] at h
      simp only [Nat.zero_add] at h
      obtain ⟨p, q, hpq⟩ := ih h
      exact ⟨c :: p, q, by rw [List.cons_append, hpq]⟩

theorem isPrefixOf_call_head (c : Char) (rest : Str)
    (h : kwCall.isPrefixOf (c :: rest) = true) : c = 'c' := by
  obtain ⟨q, hq⟩ := List.isPrefixOf_iff_prefix.1 h
  have : ('c' :: (['a', 'l', 'l'] ++ q) : Str) = c :: rest := hq
  exact (List.cons.injEq .. ▸ this).1.symm

theorem countCallOcc_zero_of_no_c (l : Str) (h : 'c' ∉ l) : countCallOcc l = 0 := by
  induction l with
  | nil => rfl
  | cons c rest ih =>
    simp only [List.mem_cons, not_or] at h
    have hp : kwCall.isPrefixOf (c :: rest) = false := by
      by_contra hcon
      have := isPrefixOf_call_head c rest (by simpa using hcon)
      exact h.1 this.symm
    rw [countCallOcc, hp]
    simpa using ih h.2

theorem stripCS_sound (p s r : Str) (h : stripCS p s = some r) : s = p ++ r := by
  unfold stripCS at h
  by_cases hp : p.isPrefixOf s = true
  · rw [if_pos hp] at h
    obtain ⟨t, ht⟩ := List.isPrefixOf_iff_prefix.1 hp
    have hr : r = s.drop p.length := by simpa using h.symm
    rw [hr, ← ht, List.drop_left]
  · rw [if_neg hp] at h
    simp at h

theorem stripWs1_sound (s r : Str) (h : stripWs1 s = some r) :
    ∃ w, s = w ++ r ∧ (∀ c ∈ w, jsWhitespace c = true) ∧ w ≠ [] := by
  cases s with
  | nil => simp [stripWs1] at h
  | cons c rest =>
    simp only [stripWs1] at h
    by_cases hc : jsWhitespace c = true
    · rw [if_pos hc] at h
      have hr : r = rest.dropWhile jsWhitespace := by simpa using h.symm
      refine ⟨c :: rest.takeWhile jsWhitespace, ?_, ?_, by simp⟩
      · rw [hr, List.cons_append, List.takeWhile_append_dropWhile]
      · intro x hx
        rcases List.mem_cons.1 hx with h1 | h1
        · subst h1; exact hc
        · exact List.mem_takeWhile_imp h1
    · rw [if_neg (by simpa using hc)] at h
      simp at h

theorem matchKeywordCS_sound (s kw r : Str) (h : matchKeywordCS s = some (kw, r)) :
    (kw = kwGiven ∨ kw = kwWhen ∨ kw = kwThen ∨ kw = kwAnd) ∧ s = kw ++ r := by
  unfold matchKeywordCS at h
  cases h1 : stripCS kwGiven s with
  | some r1 =>
    rw [h1] at h
    have : (kwGiven, r1) = (kw, r) := by simpa using h
    have hk : kwGiven = kw := congrArg Prod.fst this
    have hr : r1 = r := congrArg Prod.snd this
    subst hk; subst hr
    exact ⟨Or.inl rfl, stripCS_sound _ s r1 h1⟩
  | none =>
    rw [h1] at h
    simp only [Option.map_none', Option.none_orElse] at h
    cases h2 : stripCS kwWhen s with
    | some r1 =>
      rw [h2] at h
      have : (kwWhen, r1) = (kw, r) := by simpa using h
      have hk : kwWhen = kw := congrArg Prod.fst this
      have hr : r1 = r := congrArg Prod.snd this
      subst hk; subst hr
      exact ⟨Or.inr (Or.inl rfl), stripCS_sound _ s r1 h2⟩
    | none =>
      rw [h2] at h
      simp only [Option.map_none', Option.none_orElse] at h
      cases h3 : stripCS kwThen s with
      | some r1 =>
        rw [h3] at h
        have : (kwThen, r1) = (kw, r) := by simpa using h
        have hk : kwThen = kw := congrArg Prod.fst this
        have hr : r1 = r := congrArg Prod.snd this
        subst hk; subst hr
        exact ⟨Or.inr (Or.inr (Or.inl rfl)), stripCS_sound _ s r1 h3⟩
      | none =>
        rw [h3] at h
        simp only [Option.map_none', Option.none_orElse] at h
        cases h4 : stripCS kwAnd s with
        | some r1 =>
          rw [h4] at h
          have : (kwAnd, r1) = (kw, r) := by simpa using h
          have hk : kwAnd = kw := congrArg Prod.fst this
          have hr : r1 = r := congrArg Prod.snd this
          subst hk; subst hr
          exact ⟨Or.inr (Or.inr (Or.inr rfl)), stripCS_sound _ s r1 h4⟩
        | none =>
          rw [h4] at h
          simp at h

theorem ws_ne_c (c : Char) (h : jsWhitespace c = true) : c ≠ 'c' := by
  intro he
  subst he
  exact absurd h (by decide)

theorem matchCallReplAt_sound (s kw after : Str) (h : matchCallReplAt s = some (kw, after)) :
    (kw = kwGiven ∨ kw = kwWhen ∨ kw = kwThen ∨ kw = kwAnd) ∧
    ∃ mid, s = kwCall ++ (mid ++ after) ∧ 'c' ∉ mid := by
  unfold matchCallReplAt at h
  cases h1 : stripCS kwCall s with
  | none => rw [h1] at h; simp at h
  | some r1 =>
    rw [h1] at h
    simp only [Option.bind_eq_bind, Option.some_bind] at h
    cases h2 : stripWs1 r1 with
    | none => rw [h2] at h; simp at h
    | some r2 =>
      rw [h2] at h
      simp only [Option.some_bind] at h
      cases h3 : matchKeywordCS r2 with
      | none => rw [h3] at h; simp at h
      | some p =>
        obtain ⟨kw1, r3⟩ := p
        rw [h3] at h
        simp only [Option.some_bind] at h
        cases h4 : stripWs1 r3 with
        | none => rw [h4] at h; simp at h
        | some r4 =>
          rw [h4] at h
          have hpair : (kw1, r4) = (kw, after) := by simpa using h
          have hkeq : kw1 = kw := congrArg Prod.fst hpair
          have hreq : r4 = after := congrArg Prod.snd hpair
          obtain ⟨hkws, hs2⟩ := matchKeywordCS_sound r2 kw1 r3 h3
          obtain ⟨w1, hw1, hw1c, -⟩ := stripWs1_sound r1 r2 h2
          obtain ⟨w2, hw2, hw2c, -⟩ := stripWs1_sound r3 r4 h4
          have hs1 := stripCS_sound kwCall s r1 h1
          refine ⟨hkeq ▸ hkws, w1 ++ (kw1 ++ w2), ?_, ?_⟩
          · rw [← hreq, hs1, hw1, hs2, hw2]
            simp [List.append_assoc]
          · intro hc
            rcases List.mem_append.1 hc with hcc | hcc
            · exact absurd rfl (ws_ne_c 'c' (hw1c 'c' hcc))
            · rcases List.mem_append.1 hcc with hcc2 | hcc2
              · rcases hkws with hk2 | hk2 | hk2 | hk2 <;> rw [hk2] at hcc2 <;>
                  exact absurd hcc2 (by decide)
              · exact absurd rfl (ws_ne_c 'c' (hw2c 'c' hcc2))

theorem replaceCallOnce_spec (l : Str) :
    replaceCallOnce l = l ∨
    ∃ pre kw mid after, l = pre ++ (kwCall ++ (mid ++ after)) ∧
      replaceCallOnce l = pre ++ (kw ++ ' ' :: after) ∧
      (kw = kwGiven ∨ kw = kwWhen ∨ kw = kwThen ∨ kw = kwAnd) ∧ 'c' ∉ mid := by
  induction l with
  | nil => exact Or.inl rfl
  | cons c rest ih =>
    cases hm : matchCallReplAt (c :: rest) with
    | some p =>
      obtain ⟨kw, after⟩ := p
      obtain ⟨hkws, mid, hdecomp, hmid⟩ := matchCallReplAt_sound (c :: rest) kw after hm
      refine Or.inr ⟨[], kw, mid, after, by simpa using hdecomp, ?_, hkws, hmid⟩
      rw [replaceCallOnce, hm]
      simp
    | none =>
      have hrw : replaceCallOnce (c :: rest) = c :: replaceCallOnce rest := by
        rw [replaceCallOnce, hm]
      rcases ih with heq | ⟨pre, kw, mid, after, hl, hres, hkws, hmid⟩
      · exact Or.inl (by rw [hrw, heq])
      · refine Or.inr ⟨c :: pre, kw, mid, after, ?_, ?_, hkws, hmid⟩
        · rw [List.cons_append, ← hl]
        · rw [hrw, hres, List.cons_append]

theorem append_pat_split (a b p q pat : Str) (h : a ++ b = p ++ (pat ++ q)) :
    (∃ q2, a = p ++ (pat ++ q2) ∧ q = q2 ++ b) ∨
    (∃ p2, b = p2 ++ (pat ++ q) ∧ p = a ++ p2) ∨
    (∃ p1 p2, pat = p1 ++ p2 ∧ p1 ≠ [] ∧ p2 ≠ [] ∧ a = p ++ p1 ∧ b = p2 ++ q) := by
  rcases List.append_eq_append_iff.1 h with ⟨a2, hp, hb⟩ | ⟨c2, ha, hd⟩
  · exact Or.inr (Or.inl ⟨a2, hb, hp⟩)
  · rcases List.append_eq_append_iff.1 hd with ⟨x, hc2, hq⟩ | ⟨y, hpat, hb⟩
    · refine Or.inl ⟨x, ?_, hq⟩
      rw [ha, hc2]
    · by_cases hc2nil : c2 = []
      · subst hc2nil
        refine Or.inr (Or.inl ⟨[], ?_, by simpa using ha.symm⟩)
        simp at hpat
        rw [hb, hpat]
        rfl
      · by_cases hynil : y = []
        · subst hynil
          refine Or.inl ⟨[], ?_, ?_⟩
          · rw [ha, hpat]
            simp
          · simpa using hb.symm ▸ (by rw [hb]; rfl : q = [] ++ b)
        · exact Or.inr (Or.inr ⟨c2, y, hpat, hc2nil, hynil, ha, hb⟩)

theorem kw_space_not_callsuffix (kw after p2 q : Str)
    (hk : kw = kwGiven ∨ kw = kwWhen ∨ kw = kwThen ∨ kw = kwAnd)
    (hp2 : p2 = ['a', 'l', 'l'] ∨ p2 = ['l', 'l'] ∨ p2 = ['l'])
    (h : (kw ++ [' ']) ++ after = p2 ++ q) : False := by
  rcases hk with h1 | h1 | h1 | h1 <;> rcases hp2 with h2 | h2 | h2 <;> subst h1 <;> subst h2 <;>
    simp [kwGiven, kwWhen, kwThen, kwAnd] at h

theorem replaced_no_call (pre kw mid after : Str)
    (hk : kw = kwGiven ∨ kw = kwWhen ∨ kw = kwThen ∨ kw = kwAnd)
    (hcnt : countCallOcc (pre ++ (kwCall ++ (mid ++ after))) ≤ 1) :
    countCallOcc (pre ++ (kw ++ ' ' :: after)) = 0 := by
  by_contra hcon
  have hpos : 1 ≤ countCallOcc (pre ++ (kw ++ ' ' :: after)) :=
    Nat.one_le_iff_ne_zero.2 hcon
  obtain ⟨p, q, hpq⟩ := countCallOcc_pos_decomp _ hpos
  have hpq2 : pre ++ ((kw ++ [' ']) ++ after) = p ++ (kwCall ++ q) := by
    rw [← hpq]
    simp
  rcases append_pat_split pre ((kw ++ [' ']) ++ after) p q kwCall hpq2 with
    ⟨q2, hpre, -⟩ | ⟨p2, hX, -⟩ | ⟨p1, p2, hpat, hp1, hp2, hpre, hX⟩
  · have heq : pre ++ (kwCall ++ (mid ++ after)) =
        p ++ (kwCall ++ (q2 ++ (kwCall ++ (mid ++ after)))) := by
      rw [hpre]
      simp
    rw [heq] at hcnt
    have := two_occ_ge_two p q2 (mid ++ after)
    omega
  · rcases append_pat_split (kw ++ [' ']) after p2 q kwCall hX with
      ⟨q3, hkw2, -⟩ | ⟨p3, hafter, -⟩ | ⟨p4, p5, hpat, hp4, hp5, hkw2, hafter⟩
    · have hcmem : 'c' ∈ (kw ++ [' '] : Str) := by
        rw [hkw2]
        simp [kwCall]
      rcases hk with h | h | h | h <;> rw [h] at hcmem <;> exact absurd hcmem (by decide)
    · have heq : pre ++ (kwCall ++ (mid ++ after)) =
          pre ++ (kwCall ++ ((mid ++ p3) ++ (kwCall ++ q))) := by
        rw [hafter]
        simp
      rw [heq] at hcnt
      have := two_occ_ge_two pre (mid ++ p3) q
      have h3 : countCallOcc (pre ++ (kwCall ++ ((mid ++ p3) ++ (kwCall ++ q)))) ≥ 2 := by
        have h4 := two_occ_ge_two pre (mid ++ p3) q
        calc 2 ≤ countCallOcc (pre ++ (kwCall ++ ((mid ++ p3) ++ (kwCall ++ q)))) := h4
        _ ≤ _ := le_refl _
      omega
    · have hcp4 : 'c' ∈ p4 := by
        cases p4 with
        | nil => exact absurd rfl hp4
        | cons x xs =>
          have hx : ('c' :: (['a', 'l', 'l'] ++ []) : Str) = x :: (xs ++ p5) := by
            rw [show (kwCall : Str) = 'c' :: (['a', 'l', 'l'] ++ []) from by simp [kwCall]] at hpat
            exact hpat
          have : ('c' : Char) = x := (List.cons.injEq .. ▸ hx).1
          simp [← this]
      have hcmem : 'c' ∈ (kw ++ [' '] : Str) := by
        rw [hkw2]
        exact List.mem_append.2 (Or.inr hcp4)
      rcases hk with h | h | h | h <;> rw [h] at hcmem <;> exact absurd hcmem (by decide)
  · have hp2cases : p2 = ['a', 'l', 'l'] ∨ p2 = ['l', 'l'] ∨ p2 = ['l'] := by
      rcases p1 with - | ⟨a1, - | ⟨a2, - | ⟨a3, - | ⟨a4, p15⟩⟩⟩⟩
      · exact absurd rfl hp1
      · left
        have := hpat
        simp only [kwCall, List.cons_append, List.nil_append, List.cons.injEq] at this
        exact this.2.symm
      · right; left
        have := hpat
        simp only [kwCall, List.cons_append, List.nil_append, List.cons.injEq] at this
        exact this.2.2.symm
      · right; right
        have := hpat
        simp only [kwCall, List.cons_append, List.nil_append, List.cons.injEq] at this
        exact this.2.2.2.symm
      · exfalso
        have := hpat
        simp only [kwCall, List.cons_append, List.nil_append, List.cons.injEq] at this
        have h5 := this.2.2.2.2
        exact absurd h5.symm (by simp [hp2])
    exact kw_space_not_callsuffix kw after p2 q hk hp2cases hX

theorem replaceCallOnce_of_count_zero (l : Str) (h : countCallOcc l = 0) :
    replaceCallOnce l = l := by
  induction l with
  | nil => rfl
  | cons c rest ih =>
    have hp : kwCall.isPrefixOf (c :: rest) = false := by
      by_contra hcon
      rw [countCallOcc, (by simpa using hcon : kwCall.isPrefixOf (c :: rest) = true)] at h
      simp at h
    have hrest : countCallOcc rest = 0 := by
      rw [countCallOcc, hp] at h
      simpa using h
    have hm : matchCallReplAt (c :: rest) = none := by
      unfold matchCallReplAt stripCS
      rw [hp]
      rfl
    rw [replaceCallOnce, hm, ih hrest]

theorem formatLine_eq_of_guard (line : Str)
    (hg : (kwScenario.isPrefixOf (trimStr line) || decide (trimStr line = kwEndLine)) = true) :
    formatLine line = line := by
  unfold formatLine
  rw [if_pos hg]

theorem formatLine_no_guard (line : Str)
    (hg : ¬ (kwScenario.isPrefixOf (trimStr line) || decide (trimStr line = kwEndLine)) = true) :
    formatLine line = replaceCallOnce line := by
  unfold formatLine
  rw [if_neg hg]

theorem formatLine_idem (line : Str) (h : countCallOcc line ≤ 1) :
    formatLine (formatLine line) = formatLine line := by
  by_cases hg : (kwScenario.isPrefixOf (trimStr line) || decide (trimStr line = kwEndLine)) = true
  · rw [formatLine_eq_of_guard line hg, formatLine_eq_of_guard line hg]
  · rw [formatLine_no_guard line hg]
    rcases replaceCallOnce_spec line with heq | ⟨pre, kw, mid, after, hl, hres, hkws, hmid⟩
    · rw [heq, formatLine_no_guard line hg, heq]
    · have hzero : countCallOcc (replaceCallOnce line) = 0 := by
        rw [hres]
        exact replaced_no_call pre kw mid after hkws (hl ▸ h)
      by_cases hg2 : (kwScenario.isPrefixOf (trimStr (replaceCallOnce line)) ||
          decide (trimStr (replaceCallOnce line) = kwEndLine)) = true
      · rw [formatLine_eq_of_guard _ hg2]
      · rw [formatLine_no_guard _ hg2, replaceCallOnce_of_count_zero _ hzero]

theorem formatLine_no_newline (line : Str) (h : '\n' ∉ line) : '\n' ∉ formatLine line := by
  by_cases hg : (kwScenario.isPrefixOf (trimStr line) || decide (trimStr line = kwEndLine)) = true
  · rw [formatLine_eq_of_guard line hg]
    exact h
  · rw [formatLine_no_guard line hg]
    rcases replaceCallOnce_spec line with heq | ⟨pre, kw, mid, after, hl, hres, hkws, hmid⟩
    · rw [heq]
      exact h
    · rw [hres]
      intro hmem
      rcases List.mem_append.1 hmem with h1 | h1
      · exact h (by rw [hl]; exact List.mem_append.2 (Or.inl h1))
      · rcases List.mem_append.1 h1 with h2 | h2
        · rcases hkws with hk | hk | hk | hk <;> rw [hk] at h2 <;> exact absurd h2 (by decide)
        · rcases List.mem_cons.1 h2 with h3 | h3
          · exact absurd h3 (by decide)
          · refine h (by rw [hl]; exact List.mem_append.2 (Or.inr
              (List.mem_append.2 (Or.inr (List.mem_append.2 (Or.inr h3))))))

theorem formatScenarioDefinition_eq (x : Str) (hx : x ≠ []) :
    formatScenarioDefinition x = joinLines ((splitLines x).map formatLine) := by
  rw [formatScenarioDefinition, if_neg hx]

theorem formatScenarioDefinition_idem (x : Str)
    (h : ∀ l ∈ splitLines x, countCallOcc l ≤ 1) :
    formatScenarioDefinition (formatScenarioDefinition x) = formatScenarioDefinition x := by
  by_cases hx : x = []
  · subst hx
    rfl
  · set y := formatScenarioDefinition x with hy
    by_cases hynil : y = []
    · rw [hynil]
      simp [formatScenarioDefinition]
    · have hylines : splitLines y = (splitLines x).map formatLine := by
        rw [hy, formatScenarioDefinition_eq x hx]
        apply splitLines_joinLines
        · intro hcon
          exact splitOnChar_ne_nil '\n' x (by simpa using hcon)
        · intro l hl
          obtain ⟨l0, hl0, rfl⟩ := List.mem_map.1 hl
          exact formatLine_no_newline l0 (mem_splitOnChar_not_sep '\n' x l0 hl0)
      rw [formatScenarioDefinition_eq y hynil, hylines, List.map_map]
      simp only [Function.comp_def]
      rw [List.map_congr_left (fun l hl => formatLine_idem l (h l hl)),
        ← formatScenarioDefinition_eq x hx]

theorem SimpleCache.get_eq (c : SimpleCache α) (now : Int) (k : Str) (e : CacheEntry α)
    (h : c.entries k = some e) :
    c.get now k = if now - e.timestamp > c.TTL
      then (none, { c with entries := fun kk => if kk = k then none else c.entries kk })
      else (some e.data, c) := by
  unfold SimpleCache.get
  rw [h]

/-- Claim C1, counterexample: the round trip fails as stated when the
scenario name contains a single quote, although every step text
(vacuously) contains none — generating from name `a'b` and parsing back
yields name `a`. -/
theorem c1_roundtrip_counterexample :
    scenarioToStructured (stepsToScenarioDefinition ['a', '\'', 'b'] []) ≠
      ⟨['a', '\'', 'b'], []⟩ := by decide

/-- Claim C1 (amended): parsing the generated definition returns the
structured scenario exactly, provided the name is non-empty and free of
single quotes and newlines, and every step has one of the four lowercase
keyword types and a non-empty text free of single quotes and
newlines. -/
theorem c1_roundtrip (name : Str) (steps : List ScenarioStep)
    (hne : name ≠ []) (hq : '\'' ∉ name) (hnl : '\n' ∉ name)
    (hsteps : ∀ st ∈ steps,
      (st.type = kwGiven ∨ st.type = kwWhen ∨ st.type = kwThen ∨ st.type = kwAnd) ∧
      st.text ≠ [] ∧ '\'' ∉ st.text ∧ '\n' ∉ st.text) :
    scenarioToStructured (stepsToScenarioDefinition name steps) = ⟨name, steps⟩ := by
  rw [scenarioToStructured, extractScenarioName_generated name steps hne hq,
    extractScenarioSteps_generated name steps hnl hsteps]

/-- Claim C1, witness: the round trip at a concrete scenario. -/
theorem c1_roundtrip_witness :
    scenarioToStructured (stepsToScenarioDefinition ['L', 'o', 'g', 'i', 'n']
      [⟨kwGiven, ['a', ' ', 'u', 's', 'e', 'r']⟩, ⟨kwWhen, ['o', 'k']⟩]) =
    ⟨['L', 'o', 'g', 'i', 'n'], [⟨kwGiven, ['a', ' ', 'u', 's', 'e', 'r']⟩, ⟨kwWhen, ['o', 'k']⟩]⟩ :=
  c1_roundtrip _ _ (by decide) (by decide) (by decide) (by decide)

/-- Claim C2, counterexample: `formatScenarioDefinition` is not
idempotent on the line `call call given 'a'` — the first application
rewrites it to `call given 'a'`, the second to `given 'a'`. -/
theorem c2_idempotence_counterexample :
    formatScenarioDefinition (formatScenarioDefinition
      ['c', 'a', 'l', 'l', ' ', 'c', 'a', 'l', 'l', ' ', 'g', 'i', 'v', 'e', 'n', ' ', '\'', 'a', '\'']) ≠
    formatScenarioDefinition
      ['c', 'a', 'l', 'l', ' ', 'c', 'a', 'l', 'l', ' ', 'g', 'i', 'v', 'e', 'n', ' ', '\'', 'a', '\''] := by
  decide

/-- Claim C2 (amended): `formatScenarioDefinition` is idempotent on
every input in which no line contains the substring `call` at more than
one position. -/
theorem c2_idempotence (x : Str) (h : ∀ l ∈ splitLines x, countCallOcc l ≤ 1) :
    formatScenarioDefinition (formatScenarioDefinition x) = formatScenarioDefinition x :=
  formatScenarioDefinition_idem x h

/-- Claim C2, witness: idempotence at a concrete two-line definition. -/
theorem c2_idempotence_witness :
    formatScenarioDefinition (formatScenarioDefinition
      ['c', 'a', 'l', 'l', ' ', 'g', 'i', 'v', 'e', 'n', ' ', '\'', 'a', '\'', '\n', 'e', 'n', 'd']) =
    formatScenarioDefinition
      ['c', 'a', 'l', 'l', ' ', 'g', 'i', 'v', 'e', 'n', ' ', '\'', 'a', '\'', '\n', 'e', 'n', 'd'] :=
  c2_idempotence _ (by decide)

/-- Claim C3: for method PATCH and path
`/projects/123/scenarios/456/tags/789`, the key set passed to exact-key
invalidation includes the five required `GET:` keys. -/
theorem c3_invalidator_derivation :
    (("GET:/projects/123").toList ∈ invalidateCacheForPath true (("PATCH").toList)
      (("/projects/123/scenarios/456/tags/789").toList)) ∧
    (("GET:/projects/123/scenarios").toList ∈ invalidateCacheForPath true (("PATCH").toList)
      (("/projects/123/scenarios/456/tags/789").toList)) ∧
    (("GET:/projects/123/scenarios/456").toList ∈ invalidateCacheForPath true (("PATCH").toList)
      (("/projects/123/scenarios/456/tags/789").toList)) ∧
    (("GET:/projects/123/scenarios/456/tags").toList ∈ invalidateCacheForPath true (("PATCH").toList)
      (("/projects/123/scenarios/456/tags/789").toList)) ∧
    (("GET:/projects/123/scenarios/456/tags/789").toList ∈ invalidateCacheForPath true (("PATCH").toList)
      (("/projects/123/scenarios/456/tags/789").toList)) := by
  decide

/-- Claim C4: after `set k v` at time `t0`, a `get k` at time `t` with
`t - t0 ≤ TTL` returns `v`; with `t - t0 > TTL` it returns absent and
removes the entry from the store (lazy eviction). -/
theorem c4_cache_ttl (α : Type) (c : SimpleCache α) (k : Str) (v : α) (t0 t : Int) :
    (t - t0 ≤ c.TTL → (SimpleCache.get (SimpleCache.set c k v t0) t k).1 = some v) ∧
    (c.TTL < t - t0 →
      (SimpleCache.get (SimpleCache.set c k v t0) t k).1 = none ∧
      ((SimpleCache.get (SimpleCache.set c k v t0) t k).2).entries k = none) := by
  have hset : (SimpleCache.set c k v t0).entries k = some ⟨v, t0⟩ := by
    simp [SimpleCache.set]
  constructor
  · intro hle
    rw [SimpleCache.get_eq _ t k ⟨v, t0⟩ hset,
      if_neg (by simp [SimpleCache.set]; omega)]
  · intro hgt
    rw [SimpleCache.get_eq _ t k ⟨v, t0⟩ hset,
      if_pos (by simp [SimpleCache.set]; omega)]
    exact ⟨rfl, by simp⟩

/-- Claim C4, witness: both branches at a concrete cache with TTL
120000 ms. -/
theorem c4_cache_ttl_witness :
    ((SimpleCache.get (SimpleCache.set (SimpleCache.create (some 120000) : SimpleCache Nat)
      ['k'] 7 0) 50 ['k']).1 = some 7) ∧
    ((SimpleCache.get (SimpleCache.set (SimpleCache.create (some 120000) : SimpleCache Nat)
      ['k'] 7 0) 130000 ['k']).1 = none ∧
     ((SimpleCache.get (SimpleCache.set (SimpleCache.create (some 120000) : SimpleCache Nat)
      ['k'] 7 0) 130000 ['k']).2).entries ['k'] = none) :=
  ⟨(c4_cache_ttl Nat (SimpleCache.create (some 120000)) ['k'] 7 0 50).1 (by decide),
   (c4_cache_ttl Nat (SimpleCache.create (some 120000)) ['k'] 7 0 130000).2 (by decide)⟩

set_option maxRecDepth 16384 in
/-- Claim C5: with the read-only flag enabled, the call-tool handler
rejects each of the ten write operations before reaching the handler
switch (so no network call is made), and dispatches each of the six
read operations. -/
theorem c5_read_only_gate :
    (WRITE_OPERATIONS.all
      (fun n => handleCallTool true n == ToolCallOutcome.rejectedReadOnly n)) = true ∧
    (READ_OPERATIONS.all
      (fun n => handleCallTool true n == ToolCallOutcome.dispatched n)) = true := by
  decide

theorem foldl_collect (ε ρ : Type) (f : List ρ × List ε → Except ε ρ → List ρ × List ε)
    (hok : ∀ acc r, f acc (.ok r) = (acc.1 ++ [r], acc.2))
    (herr : ∀ acc e, f acc (.error e) = (acc.1, acc.2 ++ [e]))
    (outcomes : List (Except ε ρ)) (acc : List ρ × List ε) :
    outcomes.foldl f acc =
    (acc.1 ++ outcomes.filterMap (fun o => o.toOption),
     acc.2 ++ outcomes.filterMap errValue) := by
  induction outcomes generalizing acc with
  | nil => simp
  | cons o rest ih =>
    cases o with
    | ok r =>
      rw [List.foldl_cons, hok, ih]
      simp [Except.toOption, errValue]
    | error e =>
      rw [List.foldl_cons, herr, ih]
      simp [Except.toOption, errValue]

/-- Claim C6: over a non-empty sequence of individual tag-addition
outcomes, `addTagsToScenario` raises an error when every outcome
failed, and otherwise returns exactly the successful results in input
order. -/
theorem c6_partial_failure (ε ρ : Type) (outcomes : List (Except ε ρ))
    (hne : outcomes ≠ []) :
    ((∀ o ∈ outcomes, ∀ r : ρ, o ≠ .ok r) →
      ∃ msg, addTagsToScenario outcomes = .error msg) ∧
    ((∃ o ∈ outcomes, ∃ r : ρ, o = .ok r) →
      addTagsToScenario outcomes = .ok (outcomes.filterMap (fun o => o.toOption))) := by
  constructor
  · intro hall
    simp only [addTagsToScenario]
    rw [foldl_collect ε ρ _ (fun acc r => rfl) (fun acc e => rfl)]
    simp only [List.nil_append]
    have hres : outcomes.filterMap (fun o => o.toOption) = [] := by
      rw [List.filterMap_eq_nil_iff]
      intro o ho
      cases ho2 : o with
      | ok r => exact absurd ho2 (hall o ho r)
      | error e => rfl
    have herr : outcomes.filterMap errValue ≠ [] := by
      cases outcomes with
      | nil => exact absurd rfl hne
      | cons o rest =>
        cases ho : o with
        | ok r => exact absurd ho (hall o (by simp) r)
        | error e => simp [ho, errValue]
    rw [hres, if_pos ⟨List.length_pos.2 herr, by simp⟩]
    exact ⟨_, rfl⟩
  · intro hsome
    obtain ⟨o, ho, r, hor⟩ := hsome
    simp only [addTagsToScenario]
    rw [foldl_collect ε ρ _ (fun acc r => rfl) (fun acc e => rfl)]
    simp only [List.nil_append]
    have hmem : r ∈ outcomes.filterMap (fun o => o.toOption) :=
      List.mem_filterMap.2 ⟨o, ho, by rw [hor]; rfl⟩
    have hres : outcomes.filterMap (fun o => o.toOption) ≠ [] := by
      intro hcon
      rw [hcon] at hmem
      simp at hmem
    rw [if_neg (by
      intro hand
      exact hres (List.length_eq_zero.1 hand.2))]

/-- Claim C6, witness: total failure raises, partial success returns
the successful results in order. -/
theorem c6_partial_failure_witness :
    (∃ msg, addTagsToScenario ([Except.error 0, Except.error 1] : List (Except Nat Nat)) =
      .error msg) ∧
    addTagsToScenario ([Except.error 0, Except.ok 5, Except.ok 9] : List (Except Nat Nat)) =
      .ok [5, 9] := by
  constructor
  · refine (c6_partial_failure Nat Nat _ (by simp)).1 ?_
    intro o ho r
    rcases List.mem_cons.1 ho with h | h
    · subst h; simp
    · rcases List.mem_cons.1 h with h2 | h2
      · subst h2; simp
      · simp at h2
  · have h := (c6_partial_failure Nat Nat
      ([Except.error 0, Except.ok 5, Except.ok 9] : List (Except Nat Nat)) (by simp)).2
      ⟨Except.ok 5, by simp, 5, rfl⟩
    rw [h]
    rfl

/-- Claim C7: a line recognised neither as the opening scenario line,
nor as the closing end line, nor by the step pattern contributes no
step, and the surrounding lines parse as without it; parsing returns
normally (the embedding is a total function). -/
theorem c7_parse_tolerance (u v l : Str) (hnl : '\n' ∉ l)
    (h1 : kwScenario.isPrefixOf (trimStr l) = false)
    (h2 : trimStr l ≠ kwEndLine)
    (h3 : findStepMatch (trimStr l) = none) :
    extractScenarioSteps (u ++ '\n' :: (l ++ '\n' :: v)) =
      extractScenarioSteps (u ++ '\n' :: v) := by
  have hnone := stepOfLine_none_of l h1 h2 h3
  rw [extractScenarioSteps_eq_filterMap, extractScenarioSteps_eq_filterMap,
    splitLines_append u (l ++ '\n' :: v), splitLines_append l v, splitLines_append u v,
    splitLines_eq_single l hnl]
  simp [List.filterMap_append, hnone]

/-- Claim C7, witness: a `# comment` line in the middle of a definition
is skipped while the step line around it still parses. -/
theorem c7_parse_tolerance_witness :
    extractScenarioSteps
      (['g', 'i', 'v', 'e', 'n', ' ', '\'', 'a', '\''] ++ '\n' ::
        (['#', ' ', 'c', 'o', 'm', 'm', 'e', 'n', 't'] ++ '\n' :: ['e', 'n', 'd'])) =
    extractScenarioSteps
      (['g', 'i', 'v', 'e', 'n', ' ', '\'', 'a', '\''] ++ '\n' :: ['e', 'n', 'd']) :=
  c7_parse_tolerance _ _ _ (by decide) (by decide) (by decide) (by decide)

/-- Claim C8: constructing the cache with a TTL argument of `0 * 1000`
milliseconds (a configured `cacheTTLSeconds` of 0) keeps the default
TTL of 60000 ms because 0 is falsy, so an entry stored at time 0 is
still served at time 59999. -/
theorem c8_zero_ttl_default :
    ((SimpleCache.create (some (0 * 1000)) : SimpleCache JSValue).TTL = 60000) ∧
    ((SimpleCache.get (SimpleCache.set (SimpleCache.create (some (0 * 1000)) : SimpleCache JSValue)
      ['k'] (JSValue.jsNum 1) 0) 59999 ['k']).1 = some (JSValue.jsNum 1)) := by
  constructor
  · decide
  · decide

/-- Claim C9: the orchestrator never serves a falsy body from cache —
a cached falsy value is treated as a miss and the request proceeds to
the network, and any value served from cache is truthy. -/
theorem c9_falsy_cache_miss (c : SimpleCache JSValue) (now : Int) (path : Str) :
    (∀ v, (SimpleCache.get c now (mGET ++ ':' :: path)).1 = some v → truthy v = false →
      makeCucumberStudioRequest true c now mGET path = RequestPlan.networkCall) ∧
    (∀ v, makeCucumberStudioRequest true c now mGET path = RequestPlan.servedFromCache v →
      truthy v = true) := by
  constructor
  · intro v hget hfal
    unfold makeCucumberStudioRequest
    rw [if_pos (by simp)]
    rw [hget]
    show (if truthy v = true then RequestPlan.servedFromCache v
      else RequestPlan.networkCall) = RequestPlan.networkCall
    rw [hfal]
    simp
  · intro v hplan
    unfold makeCucumberStudioRequest at hplan
    rw [if_pos (by simp)] at hplan
    cases hget : (SimpleCache.get c now (mGET ++ ':' :: path)).1 with
    | none =>
      rw [hget] at hplan
      simp at hplan
    | some w =>
      rw [hget] at hplan
      have hplan2 : (if truthy w = true then RequestPlan.servedFromCache w
          else RequestPlan.networkCall) = RequestPlan.servedFromCache v := hplan
      by_cases ht : truthy w = true
      · rw [if_pos ht] at hplan2
        simp only [RequestPlan.servedFromCache.injEq] at hplan2
        rw [← hplan2]
        exact ht
      · rw [if_neg ht] at hplan2
        simp at hplan2

/-- Claim C9, witness: a cached empty-string body is not served; the
plan is a network call. -/
theorem c9_falsy_cache_miss_witness :
    makeCucumberStudioRequest true
      (SimpleCache.set (SimpleCache.create (some 120000)) (mGET ++ ':' :: ['/', 'p'])
        (JSValue.jsStr []) 0)
      50 mGET ['/', 'p'] = RequestPlan.networkCall :=
  (c9_falsy_cache_miss
    (SimpleCache.set (SimpleCache.create (some 120000)) (mGET ++ ':' :: ['/', 'p'])
      (JSValue.jsStr []) 0)
    50 ['/', 'p']).1 (JSValue.jsStr []) (by decide) (by decide)

/-- Claim C10: every step produced by `extractScenarioSteps`, for any
input, has a type among the four lowercase keywords and a non-empty
text containing no single quote. -/
theorem c10_step_invariant (definition : Str) (st : ScenarioStep)
    (h : st ∈ extractScenarioSteps definition) :
    (st.type = kwGiven ∨ st.type = kwWhen ∨ st.type = kwThen ∨ st.type = kwAnd) ∧
    st.text ≠ [] ∧ '\'' ∉ st.text :=
  extractScenarioSteps_sound definition st h

/-- Claim C10, witness: the invariant at a concrete parsed step. -/
theorem c10_step_invariant_witness :
    ((⟨kwGiven, ['a']⟩ : ScenarioStep).type = kwGiven ∨
     (⟨kwGiven, ['a']⟩ : ScenarioStep).type = kwWhen ∨
     (⟨kwGiven, ['a']⟩ : ScenarioStep).type = kwThen ∨
     (⟨kwGiven, ['a']⟩ : ScenarioStep).type = kwAnd) ∧
    (⟨kwGiven, ['a']⟩ : ScenarioStep).text ≠ [] ∧
    '\'' ∉ (⟨kwGiven, ['a']⟩ : ScenarioStep).text :=
  c10_step_invariant ['g', 'i', 'v', 'e', 'n', ' ', '\'', 'a', '\''] ⟨kwGiven, ['a']⟩ (by decide)
